import Mathlib

set_option maxRecDepth 100000

/-!
Verification of the core trading logic of the `ai-hedge-fund-sim` repository:
FIFO lot accounting (`PositionController` in `AutoTradingEngine.ts`),
technical indicators (`TechnicalIndicators.ts`), the moving-average strategy
(`MovingAverageStrategy.ts`), strategy consensus (`StrategyEngine.ts`),
risk-based position sizing (`RiskManager.ts`) and the backtest equity loop
(`BacktestEngine.ts`).

Numbers are modelled as exact rationals (`ℚ`).  Where a claim is about
JavaScript's division-by-zero behaviour (NaN / Infinity), a small `JSNum`
type models the IEEE special values explicitly.
-/

/-! ## Lot ledger (`PositionController` in `AutoTradingEngine.ts`) -/

/-- A row of the `Position` table: one lot of shares for a (fund, ticker).
Timestamps are abstract `Nat` ticks; prices are exact rationals. -/
structure Position where
  id : Nat
  entryDate : Nat
  exitDate : Option Nat
  quantity : Nat
  entryPrice : ℚ
  exitPrice : Option ℚ
  isActive : Bool
deriving DecidableEq, Repr

/-- An element of the `soldPositions` array returned by `executeFIFOSell`:
the id of the source lot, the closed quantity and its entry price. -/
structure SoldLot where
  id : Nat
  quantity : Nat
  entryPrice : ℚ
deriving DecidableEq, Repr

/-- Function `getAvailableShares`: sum of `quantity` over the fund/ticker's
`isActive` positions. -/
def getAvailableShares (lots : List Position) : Nat :=
  ((lots.filter fun p => p.isActive).map fun p => p.quantity).sum

/-- Marking a position fully closed (`prisma.position.update` in the
full-sell branch of `executeFIFOSell`): deactivate, record exit price and
exit date; quantity and entry data are retained. -/
def closeFull (exitPrice : ℚ) (now : Nat) (p : Position) : Position :=
  { p with isActive := false, exitDate := some now, exitPrice := some exitPrice }

/-- The new CLOSED record created by the partial-sell branch of
`executeFIFOSell` (`prisma.position.create`): quantity is the sold
remainder, `entryPrice` is inherited from the split lot, but `entryDate`
is the current timestamp (`new Date()`), not the source lot's entry date. -/
def splitClosedRecord (p : Position) (soldQty : Nat) (exitPrice : ℚ)
    (now newId : Nat) : Position :=
  { id := newId, entryDate := now, exitDate := some now, quantity := soldQty,
    entryPrice := p.entryPrice, exitPrice := some exitPrice, isActive := false }

/-- Function `executeFIFOSell` walks the fund/ticker's positions (the Prisma query
filters `isActive: true` and orders by `entryDate` ascending — inactive
rows are skipped, the list is processed in order).  While shares remain to
sell: a lot with `quantity ≤ remaining` is fully closed, otherwise it is
split — its quantity reduced and a new CLOSED record created.  Returns the
updated table together with the `soldPositions` list. -/
def executeFIFOSell (exitPrice : ℚ) (now newId : Nat) :
    List Position → Nat → List Position × List SoldLot
  | [], _ => ([], [])
  | p :: ps, remaining =>
    if remaining = 0 then (p :: ps, [])
    else if p.isActive = false then
      let out := executeFIFOSell exitPrice now newId ps remaining
      (p :: out.1, out.2)
    else if p.quantity ≤ remaining then
      let out := executeFIFOSell exitPrice now newId ps (remaining - p.quantity)
      (closeFull exitPrice now p :: out.1,
       ⟨p.id, p.quantity, p.entryPrice⟩ :: out.2)
    else
      ({ p with quantity := p.quantity - remaining } ::
         splitClosedRecord p remaining exitPrice now newId :: ps,
       [⟨p.id, remaining, p.entryPrice⟩])

/-- Function `sellStock`: validates the quantity, checks availability
(`getAvailableShares`) and only then runs the FIFO close.  On a rejected
request the position table is returned unchanged. -/
def sellStock (lots : List Position) (quantity : Nat) (price : ℚ)
    (now newId : Nat) : List Position × Except String (List SoldLot) :=
  if quantity = 0 then
    (lots, .error "Quantity must be a positive integer")
  else if getAvailableShares lots < quantity then
    (lots, .error "Insufficient shares to sell")
  else
    let out := executeFIFOSell price now newId lots quantity
    (out.1, .ok out.2)

/-- Function `calculateAvailableCapital`: initial capital minus the cost basis
(`entryPrice × quantity`) of the fund's `isActive` positions. -/
def calculateAvailableCapital (initialCapital : ℚ) (lots : List Position) : ℚ :=
  initialCapital -
    ((lots.filter fun p => p.isActive).map
      fun p => p.entryPrice * (p.quantity : ℚ)).sum

/-! ## Risk manager (`RiskManager.ts`) -/

/-- Trade actions of a `TradeSignal` (`BUY`, `SELL`, `HOLD`). -/
inductive TradeAction where
  | BUY
  | SELL
  | HOLD
deriving DecidableEq, Repr

/-- Function `calculateKellyFraction`: modified Kelly criterion with assumed 10%
average win and volatility as average loss, clamped to [0, 0.25]. -/
def calculateKellyFraction (confidence volatility : ℚ) : ℚ :=
  let winProbability := (confidence + 1) / 2
  let lossProbability := 1 - winProbability
  let averageWin := (10 : ℚ) / 100
  let averageLoss := volatility
  let kelly := (winProbability * averageWin - lossProbability * averageLoss) / averageWin
  min (max kelly 0) (25 / 100)

/-- Function `calculatePositionSize`: 0 shares for HOLD/SELL; for BUY the
Kelly-and-confidence-scaled value is constrained by the 10% position limit
and the 95%-of-cash limit, converted to whole shares and floored at 0. -/
def calculatePositionSize (confidence : ℚ) (signal : TradeAction)
    (volatility fundValue availableCash currentPrice : ℚ) : ℤ :=
  match signal with
  | .HOLD => 0
  | .SELL => 0
  | .BUY =>
    let kellyFraction := calculateKellyFraction confidence volatility
    let basePositionValue := fundValue * kellyFraction * confidence
    let maxPositionValue := fundValue * (10 / 100)
    let maxCashToUse := availableCash * (1 - 5 / 100)
    let constrainedValue := min basePositionValue (min maxPositionValue maxCashToUse)
    let shares := ⌊constrainedValue / currentPrice⌋
    max 0 shares

/-! ## Strategy consensus (`StrategyEngine.ts`) -/

/-- The fields of a `StrategyExecutionResult` that the consensus
computation reads: the `shouldExecute` gate, the signal's action and
confidence, and the optional position size. -/
structure StrategyExecResult where
  shouldExec : Bool
  action : TradeAction
  confidence : ℚ
  positionSize : Option ℚ
deriving DecidableEq, Repr

/-- The `votes` accumulator of `calculateConsensus`: an executable result
adds its confidence to its action's tally, any other result adds 1 to
HOLD.  Components: (BUY, SELL, HOLD). -/
def consensusVotes (results : List StrategyExecResult) : ℚ × ℚ × ℚ :=
  results.foldl
    (fun v r =>
      if r.shouldExec then
        match r.action with
        | .BUY => (v.1 + r.confidence, v.2.1, v.2.2)
        | .SELL => (v.1, v.2.1 + r.confidence, v.2.2)
        | .HOLD => (v.1, v.2.1, v.2.2 + r.confidence)
      else (v.1, v.2.1, v.2.2 + 1))
    (0, 0, 0)

/-- Function `calculateConsensus`: the action with the highest weighted vote, ties
checked in the order BUY, SELL, HOLD. -/
def calculateConsensus (results : List StrategyExecResult) : TradeAction :=
  let votes := consensusVotes results
  let maxVote := max votes.1 (max votes.2.1 votes.2.2)
  if votes.1 = maxVote then .BUY
  else if votes.2.1 = maxVote then .SELL
  else .HOLD

/-- Function `calculateAverageConfidence`: mean confidence over all results, 0 for
an empty result set. -/
def calculateAverageConfidence (results : List StrategyExecResult) : ℚ :=
  if results.length = 0 then 0
  else (results.map fun r => r.confidence).sum / (results.length : ℚ)

/-- Function `calculateRecommendedSize`: confidence-weighted average of the
executable results' position sizes, floored to an integer; 0 when no
result is executable.  A result counts as executable here when
`shouldExecute` holds and `positionSize` is truthy (present and nonzero). -/
def calculateRecommendedSize (results : List StrategyExecResult) : ℤ :=
  let executables := results.filter fun r =>
    r.shouldExec && !(r.positionSize.getD 0 = 0)
  if executables.length = 0 then 0
  else
    let weightedSize := (executables.map
      fun r => r.positionSize.getD 0 * r.confidence).sum
    let totalWeight := (executables.map fun r => r.confidence).sum
    if 0 < totalWeight then ⌊weightedSize / totalWeight⌋ else 0

/-! ## JavaScript number semantics for division-by-zero cases -/

/-- A JavaScript number as far as the indicator edge cases need it: a
finite (exact rational) value, one of the two infinities, or NaN. -/
inductive JSNum where
  | fin : ℚ → JSNum
  | posInf : JSNum
  | negInf : JSNum
  | nan : JSNum
deriving DecidableEq, Repr

/-- Division of two finite JavaScript numbers: division by zero yields
NaN for 0/0 and a signed infinity otherwise (the zero denominators in the
indicator code arise as `x - x`, hence are `+0`). -/
def jsDiv (a b : ℚ) : JSNum :=
  if b = 0 then (if a = 0 then .nan else if 0 < a then .posInf else .negInf)
  else .fin (a / b)

/-- Multiplication of a JavaScript number by a finite constant. -/
def jsMulConst (x : JSNum) (c : ℚ) : JSNum :=
  match x with
  | .fin a => .fin (a * c)
  | .posInf => if 0 < c then .posInf else if c < 0 then .negInf else .nan
  | .negInf => if 0 < c then .negInf else if c < 0 then .posInf else .nan
  | .nan => .nan

/-- Addition of a finite constant to a JavaScript number. -/
def jsAddConst (c : ℚ) (x : JSNum) : JSNum :=
  match x with
  | .fin a => .fin (c + a)
  | .posInf => .posInf
  | .negInf => .negInf
  | .nan => .nan

/-- Division of a finite constant by a JavaScript number: a finite value
divided by an infinity is zero. -/
def jsDivConst (c : ℚ) (x : JSNum) : JSNum :=
  match x with
  | .fin b => jsDiv c b
  | .posInf => .fin 0
  | .negInf => .fin 0
  | .nan => .nan

/-- Subtraction of a JavaScript number from a finite constant. -/
def jsSubConst (c : ℚ) (x : JSNum) : JSNum :=
  match x with
  | .fin a => .fin (c - a)
  | .posInf => .negInf
  | .negInf => .posInf
  | .nan => .nan

/-! ## Indicator library (`TechnicalIndicators.ts`) -/

/-- Largest element of a list, as `Math.max(...xs)` on a non-empty list. -/
def listMax (l : List ℚ) : ℚ := l.foldl max (l.headD 0)

/-- Smallest element of a list, as `Math.min(...xs)` on a non-empty list. -/
def listMin (l : List ℚ) : ℚ := l.foldl min (l.headD 0)

/-- The value list computed by `simpleMovingAverage`: entry `j` is the
mean of the `period` prices ending at index `j + period - 1` (the source
loop runs `i` from `period - 1` to `prices.length - 1` over
`prices.slice(i - period + 1, i + 1)`). -/
def smaList (prices : List ℚ) (period : Nat) : List ℚ :=
  (List.range (prices.length + 1 - period)).map fun j =>
    ((prices.drop j).take period).sum / (period : ℚ)

/-- Function `simpleMovingAverage`: errors when fewer than `period` prices
are given, otherwise the list of trailing means. -/
def simpleMovingAverage (prices : List ℚ) (period : Nat) :
    Except String (List ℚ) :=
  if prices.length < period then .error "Not enough data points"
  else .ok (smaList prices period)

/-- Function `movingAverageCrossover`: compares the last and
`lookback`-back entries of the two series; both flags are false when the
series lengths differ or are too short. -/
def movingAverageCrossover (fastMA slowMA : List ℚ) (lookback : Nat) :
    Bool × Bool :=
  if fastMA.length ≠ slowMA.length ∨ fastMA.length < lookback + 1 then
    (false, false)
  else
    let currentFast := fastMA.getD (fastMA.length - 1) 0
    let currentSlow := slowMA.getD (slowMA.length - 1) 0
    let prevFast := fastMA.getD (fastMA.length - 1 - lookback) 0
    let prevSlow := slowMA.getD (slowMA.length - 1 - lookback) 0
    (decide (prevFast ≤ prevSlow ∧ currentSlow < currentFast),
     decide (prevSlow ≤ prevFast ∧ currentFast < currentSlow))

/-- The value list computed by `stochasticOscillator`: entry `j` is
`%K = ((close − lowestLow) / (highestHigh − lowestLow)) * 100` over the
window of `period` bars ending at index `i = j + period - 1`; the division
is performed unconditionally, with JavaScript semantics on a zero
denominator. -/
def stochasticList (highs lows closes : List ℚ) (period : Nat) : List JSNum :=
  (List.range (closes.length + 1 - period)).map fun j =>
    let i := j + (period - 1)
    let highSlice := (highs.drop j).take period
    let lowSlice := (lows.drop j).take period
    let highestHigh := listMax highSlice
    let lowestLow := listMin lowSlice
    jsMulConst (jsDiv (closes.getD i 0 - lowestLow) (highestHigh - lowestLow)) 100

/-- Function `stochasticOscillator`: errors on mismatched array lengths or
fewer than `period` bars, otherwise the %K list. -/
def stochasticOscillator (highs lows closes : List ℚ) (period : Nat) :
    Except String (List JSNum) :=
  if highs.length ≠ lows.length ∨ lows.length ≠ closes.length then
    .error "High, low, and close arrays must have the same length"
  else if highs.length < period then .error "Not enough data points"
  else .ok (stochasticList highs lows closes period)

/-- Consecutive price changes `prices[i] - prices[i-1]`. -/
def priceChanges (prices : List ℚ) : List ℚ :=
  (prices.zip prices.tail).map fun c => c.2 - c.1

/-- One RSI output value from the current average gain and loss:
`100 - 100 / (1 + avgGain / avgLoss)` with JavaScript division. -/
def rsiPoint (avgGain avgLoss : ℚ) : JSNum :=
  jsSubConst 100 (jsDivConst 100 (jsAddConst 1 (jsDiv avgGain avgLoss)))

/-- The Wilder-smoothing loop of `relativeStrengthIndex`: each remaining
(gain, loss) pair updates the running averages by
`(avg * (period - 1) + value) / period` and emits an RSI point. -/
def rsiLoop (period : Nat) :
    List (ℚ × ℚ) → ℚ → ℚ → List JSNum
  | [], _, _ => []
  | gl :: rest, avgGain, avgLoss =>
    let newAvgGain := (avgGain * ((period : ℚ) - 1) + gl.1) / (period : ℚ)
    let newAvgLoss := (avgLoss * ((period : ℚ) - 1) + gl.2) / (period : ℚ)
    rsiPoint newAvgGain newAvgLoss :: rsiLoop period rest newAvgGain newAvgLoss

/-- Function `relativeStrengthIndex`: errors when fewer than `period + 1`
prices are given; otherwise the first RSI from the simple averages of the
first `period` gains/losses, followed by the Wilder-smoothed RSIs. -/
def relativeStrengthIndex (prices : List ℚ) (period : Nat) :
    Except String (List JSNum) :=
  if prices.length < period + 1 then .error "Not enough data points"
  else
    let changes := priceChanges prices
    let gains := changes.map fun c => if 0 < c then c else 0
    let losses := changes.map fun c => if c < 0 then |c| else 0
    let avgGain := (gains.take period).sum / (period : ℚ)
    let avgLoss := (losses.take period).sum / (period : ℚ)
    .ok (rsiPoint avgGain avgLoss ::
      rsiLoop period ((gains.drop period).zip (losses.drop period)) avgGain avgLoss)

/-! ## Moving-average strategy (`MovingAverageStrategy.ts`) -/

/-- The parameters of a `MovingAverageConfig` that `analyze` reads. -/
structure MAConfig where
  fastPeriod : Nat
  slowPeriod : Nat
  minVolume : Option ℚ
deriving DecidableEq, Repr

/-- A `TradeSignal` as produced by the moving-average strategy: action,
confidence and suggested position size. -/
structure Signal where
  action : TradeAction
  confidence : ℚ
  positionSize : ℚ
deriving DecidableEq, Repr

/-- The final confidence clamp `Math.max(0, Math.min(1, confidence))`. -/
def clampConfidence (c : ℚ) : ℚ := max 0 (min 1 c)

/-- Function `MovingAverageStrategy.analyze` over the (close, volume)
series, with `currentPosition` the caller's aggregate position.  The
`try`/`catch` wrapper maps the errors thrown by `getLatestPrice` and
`simpleMovingAverage` (empty or too-short data) to a HOLD signal with
confidence 0.  Otherwise: optional minimum-volume filter, trend strength
`|fastMA − slowMA| / price × 100`, base confidence
`min(trendStrength / 2, 0.8)` boosted by the 10-bar volume ratio (capped
at 1.5), then the crossover / trend decision ladder, and a final clamp of
the confidence into [0, 1]. -/
def maAnalyze (cfg : MAConfig) (data : List (ℚ × ℚ))
    (currentPosition : ℚ) : Signal :=
  let closes := data.map fun d => d.1
  let volumes := data.map fun d => d.2
  if data.length = 0 ∨ closes.length < cfg.fastPeriod ∨
      closes.length < cfg.slowPeriod then
    ⟨.HOLD, 0, 0⟩
  else
    let currentPrice := closes.getD (closes.length - 1) 0
    let currentVolume := volumes.getD (volumes.length - 1) 0
    let fastMA := smaList closes cfg.fastPeriod
    let slowMA := smaList closes cfg.slowPeriod
    let crossover := movingAverageCrossover fastMA slowMA 1
    let currentFastMA := fastMA.getD (fastMA.length - 1) 0
    let currentSlowMA := slowMA.getD (slowMA.length - 1) 0
    if (match cfg.minVolume with
        | some mv => !(mv = 0) && decide (currentVolume < mv)
        | none => false) then
      ⟨.HOLD, 0, 0⟩
    else
      let maDifference := |currentFastMA - currentSlowMA|
      let trendStrength := maDifference / currentPrice * 100
      let baseConfidence := min (trendStrength / 2) (8 / 10)
      let confidence :=
        if 10 ≤ volumes.length then
          let avgVolume := ((volumes.drop (volumes.length - 10)).sum) / 10
          let volumeRatio := currentVolume / avgVolume
          baseConfidence * min volumeRatio (3 / 2)
        else baseConfidence
      if crossover.1 then
        let positionSize := if 3 < trendStrength then (4 : ℚ) / 10 else 25 / 100
        ⟨.BUY, clampConfidence (max confidence (6 / 10)), positionSize⟩
      else if crossover.2 then
        if 0 < currentPosition then
          ⟨.SELL, clampConfidence (max confidence (6 / 10)), 1⟩
        else
          ⟨.HOLD, clampConfidence confidence, 25 / 100⟩
      else if currentSlowMA < currentFastMA then
        if currentPosition = 0 ∧ 2 < trendStrength then
          ⟨.BUY, clampConfidence (confidence * (7 / 10)), 2 / 10⟩
        else
          ⟨.HOLD, clampConfidence confidence, 25 / 100⟩
      else if currentFastMA < currentSlowMA then
        if 0 < currentPosition ∧ 2 < trendStrength then
          ⟨.SELL, clampConfidence (confidence * (6 / 10)), 5 / 10⟩
        else
          ⟨.HOLD, clampConfidence confidence, 25 / 100⟩
      else
        ⟨.HOLD, clampConfidence confidence, 25 / 100⟩

/-- Modelled from the spec: a bullish moving-average crossover has just
occurred when, aligning the fast and slow SMA series on their final data
point, the fast SMA was ≤ the slow SMA at the second-to-last point and is
strictly above it at the last point ("fast crossed from ≤ slow to > slow
exactly at the last point"). -/
def bullishCrossoverAtLast (closes : List ℚ) (fastP slowP : Nat) : Bool :=
  let fastMA := smaList closes fastP
  let slowMA := smaList closes slowP
  let currFast := fastMA.getD (fastMA.length - 1) 0
  let currSlow := slowMA.getD (slowMA.length - 1) 0
  let prevFast := fastMA.getD (fastMA.length - 2) 0
  let prevSlow := slowMA.getD (slowMA.length - 2) 0
  decide (prevFast ≤ prevSlow ∧ currSlow < currFast)

/-! ## Backtest equity loop (`BacktestEngine.ts`) -/

/-- One recorded equity-curve point (the numeric fields of an
`EquityPoint`). -/
structure EquityPt where
  portfolioValue : ℚ
  dailyReturn : ℚ
  cumulativeReturn : ℚ
  drawdown : ℚ
deriving DecidableEq, Repr

/-- The per-day bookkeeping at the end of each iteration of `runBacktest`:
given the day's portfolio value, the previous day's value and the running
peak, record daily return, cumulative return and drawdown — the peak is
raised to today's value first, so the drawdown denominator is the maximum
value seen so far. -/
def equityLoop (initialCapital : ℚ) :
    List ℚ → ℚ → ℚ → List EquityPt
  | [], _, _ => []
  | pv :: rest, prevValue, peakValue =>
    let dailyReturn := (pv - prevValue) / prevValue
    let cumulativeReturn := (pv - initialCapital) / initialCapital
    let newPeak := if peakValue < pv then pv else peakValue
    let drawdown := (newPeak - pv) / newPeak
    ⟨pv, dailyReturn, cumulativeReturn, drawdown⟩ ::
      equityLoop initialCapital rest pv newPeak

/-- The equity curve recorded by `runBacktest` over the sequence of daily
portfolio values: both the previous value and the peak are seeded with the
initial capital. -/
def runBacktestEquity (initialCapital : ℚ) (values : List ℚ) : List EquityPt :=
  equityLoop initialCapital values initialCapital initialCapital

/-- The `maxDrawdown` of `calculatePerformanceMetrics`:
`Math.max(...equity.map(point => point.drawdown))`. -/
def maxDrawdownOf (equity : List EquityPt) : ℚ :=
  listMax (equity.map fun p => p.drawdown)

/-- The `calmarRatio` of `calculatePerformanceMetrics`: annualized return
over max drawdown when the drawdown is positive, otherwise 0. -/
def calmarRatio (annualizedReturn maxDrawdown : ℚ) : ℚ :=
  if 0 < maxDrawdown then annualizedReturn / maxDrawdown else 0

/-! ## Helper lemmas -/

/-- Splitting `getAvailableShares` at an active head position. -/
theorem getAvailableShares_cons_active {p : Position} (ps : List Position)
    (hp : p.isActive = true) :
    getAvailableShares (p :: ps) = p.quantity + getAvailableShares ps := by
  simp [getAvailableShares, List.filter_cons, hp]

/-- Splitting `calculateAvailableCapital` at an active head position. -/
theorem availCap_cons_active (init : ℚ) {p : Position} (ps : List Position)
    (hp : p.isActive = true) :
    calculateAvailableCapital init (p :: ps)
      = calculateAvailableCapital init ps - p.entryPrice * (p.quantity : ℚ) := by
  simp [calculateAvailableCapital, List.filter_cons, hp]
  ring

/-- Splitting `calculateAvailableCapital` at an inactive head position. -/
theorem availCap_cons_inactive (init : ℚ) {p : Position} (ps : List Position)
    (hp : p.isActive = false) :
    calculateAvailableCapital init (p :: ps) = calculateAvailableCapital init ps := by
  simp [calculateAvailableCapital, List.filter_cons, hp]

/-! ## C10: empty strategy set -/

/-- C10: with no strategy results, every action's tally is 0 and the
tie-break chain returns BUY (the `votes.BUY === maxVote` check fires
first), the average confidence is 0 and the recommended size is 0. -/
theorem consensus_empty_returns_buy :
    consensusVotes [] = (0, 0, 0)
    ∧ calculateConsensus [] = TradeAction.BUY
    ∧ calculateAverageConfidence [] = 0
    ∧ calculateRecommendedSize [] = 0 := by
  refine ⟨rfl, ?_, rfl, rfl⟩
  simp [calculateConsensus, consensusVotes]

/-! ## C2: insufficient inventory rejects the sell untouched -/

/-- C2: a sell whose quantity exceeds the summed quantity of the OPEN
lots fails with the insufficient-shares error, and the position table is
returned unchanged — no lot is created, closed or mutated. -/
theorem sellStock_insufficient_inventory_rejected
    (lots : List Position) (q : Nat) (price : ℚ) (now newId : Nat)
    (h : getAvailableShares lots < q) :
    (sellStock lots q price now newId).1 = lots
    ∧ (sellStock lots q price now newId).2
        = Except.error "Insufficient shares to sell" := by
  have hq : ¬(q = 0) := by omega
  rw [sellStock, if_neg hq, if_pos h]
  exact ⟨rfl, rfl⟩

/-- Witness for C2: selling 1 share against an empty position table. -/
theorem sellStock_insufficient_inventory_rejected_witness :
    getAvailableShares [] < 1
    ∧ ((sellStock [] 1 (5 : ℚ) 0 0).1 = []
        ∧ (sellStock [] 1 (5 : ℚ) 0 0).2
            = Except.error "Insufficient shares to sell") :=
  ⟨by decide, sellStock_insufficient_inventory_rejected [] 1 5 0 0 (by decide)⟩

/-! ## C8: the split record's entry date is the sell time -/

/-- C8: when a FIFO close splits an OPEN lot, the newly created CLOSED
record gets the sell timestamp as its `entryDate` (only `entryPrice` is
inherited from the split lot), so the sold portion's original acquisition
date is not retained. -/
theorem executeFIFOSell_split_entry_date
    (p : Position) (rest : List Position) (q : Nat) (ex : ℚ) (now newId : Nat)
    (hact : p.isActive = true) (h1 : 0 < q) (h2 : q < p.quantity) :
    (executeFIFOSell ex now newId (p :: rest) q).1
      = { p with quantity := p.quantity - q }
          :: splitClosedRecord p q ex now newId :: rest
    ∧ (splitClosedRecord p q ex now newId).entryDate = now
    ∧ (splitClosedRecord p q ex now newId).entryPrice = p.entryPrice
    ∧ (p.entryDate ≠ now →
        (splitClosedRecord p q ex now newId).entryDate ≠ p.entryDate) := by
  rw [executeFIFOSell, if_neg (by omega), if_neg (by simp [hact]),
    if_neg (by omega)]
  exact ⟨rfl, rfl, rfl, fun h hc => h hc.symm⟩

/-- Witness for C8: splitting a 50-share lot opened at time 1 by a
30-share sell at time 7. -/
theorem executeFIFOSell_split_entry_date_witness :
    (⟨1, 1, none, 50, 10, none, true⟩ : Position).isActive = true
    ∧ 0 < 30 ∧ 30 < (⟨1, 1, none, 50, 10, none, true⟩ : Position).quantity
    ∧ ((executeFIFOSell (11 : ℚ) 7 99 [⟨1, 1, none, 50, 10, none, true⟩] 30).1
        = { (⟨1, 1, none, 50, 10, none, true⟩ : Position) with quantity := 50 - 30 }
            :: splitClosedRecord ⟨1, 1, none, 50, 10, none, true⟩ 30 (11 : ℚ) 7 99 :: []
      ∧ (splitClosedRecord ⟨1, 1, none, 50, 10, none, true⟩ 30 (11 : ℚ) 7 99).entryDate = 7
      ∧ (splitClosedRecord ⟨1, 1, none, 50, 10, none, true⟩ 30 (11 : ℚ) 7 99).entryPrice
          = (⟨1, 1, none, 50, 10, none, true⟩ : Position).entryPrice
      ∧ ((⟨1, 1, none, 50, 10, none, true⟩ : Position).entryDate ≠ 7 →
          (splitClosedRecord ⟨1, 1, none, 50, 10, none, true⟩ 30 (11 : ℚ) 7 99).entryDate
            ≠ (⟨1, 1, none, 50, 10, none, true⟩ : Position).entryDate)) :=
  ⟨rfl, by decide, by decide,
    executeFIFOSell_split_entry_date ⟨1, 1, none, 50, 10, none, true⟩ [] 30 11 7 99
      rfl (by decide) (by decide)⟩

/-! ## C9: available capital is cost-basis accounting -/

/-- The `soldPositions` output of the FIFO walk does not depend on the
exit price, timestamp or fresh record id. -/
theorem executeFIFOSell_sold_indep (ex ex' : ℚ) (now newId now' newId' : Nat)
    (lots : List Position) :
    ∀ q, (executeFIFOSell ex now newId lots q).2
      = (executeFIFOSell ex' now' newId' lots q).2 := by
  induction lots with
  | nil => intro q; rfl
  | cons p ps ih =>
    intro q
    rw [executeFIFOSell, executeFIFOSell]
    by_cases h0 : q = 0
    · simp [h0]
    · rw [if_neg h0, if_neg h0]
      by_cases hact : p.isActive = false
      · simp only [if_pos hact]
        exact ih q
      · rw [if_neg hact, if_neg hact]
        by_cases hle : p.quantity ≤ q
        · simp only [if_pos hle]
          rw [ih (q - p.quantity)]
        · simp [if_neg hle]

/-- C9: available capital equals initial capital minus the cost basis of
the OPEN lots, so a FIFO close restores to buying power exactly the cost
basis (`entry price × quantity`) of the closed sub-lots; the exit price —
and hence any realized gain or loss — never enters the computation (the
restored amount is the same for every exit price, timestamp and id). -/
theorem availableCapital_restores_cost_basis
    (init ex : ℚ) (now newId : Nat) (lots : List Position) (q : Nat) :
    calculateAvailableCapital init (executeFIFOSell ex now newId lots q).1
      = calculateAvailableCapital init lots
        + ((executeFIFOSell ex now newId lots q).2.map
            fun s => s.entryPrice * (s.quantity : ℚ)).sum
    ∧ ∀ (ex' : ℚ) (now' newId' : Nat),
        (executeFIFOSell ex now newId lots q).2
          = (executeFIFOSell ex' now' newId' lots q).2 := by
  refine ⟨?_, fun ex' now' newId' => executeFIFOSell_sold_indep ex ex' now newId now' newId' lots q⟩
  induction lots generalizing q with
  | nil => simp [executeFIFOSell, calculateAvailableCapital]
  | cons p ps ih =>
    rw [executeFIFOSell]
    by_cases h0 : q = 0
    · simp [h0]
    · rw [if_neg h0]
      by_cases hact : p.isActive = false
      · simp only [if_pos hact]
        rw [availCap_cons_inactive init _ hact,
          availCap_cons_inactive init _ hact]
        exact ih q
      · have hact' : p.isActive = true := by
          cases hb : p.isActive
          · exact absurd hb hact
          · rfl
        rw [if_neg hact]
        by_cases hle : p.quantity ≤ q
        · simp only [if_pos hle, List.map_cons, List.sum_cons]
          have hclosed : (closeFull ex now p).isActive = false := rfl
          rw [availCap_cons_inactive init _ hclosed,
            availCap_cons_active init _ hact', ih (q - p.quantity)]
          ring
        · simp only [if_neg hle, List.map_cons, List.map_nil, List.sum_cons,
            List.sum_nil]
          have hred : ({ p with quantity := p.quantity - q } : Position).isActive
              = true := hact'
          have hsplit : (splitClosedRecord p q ex now newId).isActive = false := rfl
          rw [availCap_cons_active init _ hred,
            availCap_cons_inactive init _ hsplit,
            availCap_cons_active init _ hact']
          have hq : (((p.quantity - q : Nat)) : ℚ)
              = (p.quantity : ℚ) - (q : ℚ) := by
            push_cast [Nat.cast_sub (le_of_lt (not_le.mp hle))]
            ring
          simp only [hq]
          ring

/-! ## C4: position sizing respects the risk limits -/

/-- C4: position sizing returns 0 shares for SELL and HOLD; for BUY the
share value never exceeds 10% of the fund value nor 95% of the available
cash, and the underlying Kelly fraction is clamped to [0, 0.25]. -/
theorem calculatePositionSize_limits
    (confidence volatility fundValue availableCash currentPrice : ℚ)
    (hp : 0 < currentPrice) (hf : 0 ≤ fundValue) (hc : 0 ≤ availableCash) :
    calculatePositionSize confidence TradeAction.SELL volatility fundValue
        availableCash currentPrice = 0
    ∧ calculatePositionSize confidence TradeAction.HOLD volatility fundValue
        availableCash currentPrice = 0
    ∧ ((calculatePositionSize confidence TradeAction.BUY volatility fundValue
          availableCash currentPrice : ℚ) * currentPrice
        ≤ fundValue * (10 / 100))
    ∧ ((calculatePositionSize confidence TradeAction.BUY volatility fundValue
          availableCash currentPrice : ℚ) * currentPrice
        ≤ availableCash * (1 - 5 / 100))
    ∧ 0 ≤ calculateKellyFraction confidence volatility
    ∧ calculateKellyFraction confidence volatility ≤ 25 / 100 := by
  have hbuy : calculatePositionSize confidence TradeAction.BUY volatility
      fundValue availableCash currentPrice
      = max 0 ⌊(min (fundValue * calculateKellyFraction confidence volatility
            * confidence)
          (min (fundValue * (10 / 100)) (availableCash * (1 - 5 / 100))))
          / currentPrice⌋ := rfl
  have hmain : ∀ b : ℚ, 0 ≤ b →
      min (fundValue * calculateKellyFraction confidence volatility * confidence)
        (min (fundValue * (10 / 100)) (availableCash * (1 - 5 / 100))) ≤ b →
      ((max 0 ⌊(min (fundValue * calculateKellyFraction confidence volatility
            * confidence)
          (min (fundValue * (10 / 100)) (availableCash * (1 - 5 / 100))))
          / currentPrice⌋ : ℤ) : ℚ) * currentPrice ≤ b := by
    intro b hb hcb
    set cv := min (fundValue * calculateKellyFraction confidence volatility
        * confidence)
      (min (fundValue * (10 / 100)) (availableCash * (1 - 5 / 100))) with hcv
    rcases le_or_lt ⌊cv / currentPrice⌋ 0 with h | h
    · rw [max_eq_left h]
      simpa using hb
    · rw [max_eq_right h.le]
      calc ((⌊cv / currentPrice⌋ : ℤ) : ℚ) * currentPrice
          ≤ (cv / currentPrice) * currentPrice :=
            mul_le_mul_of_nonneg_right (Int.floor_le _) hp.le
        _ = cv := div_mul_cancel₀ _ hp.ne'
        _ ≤ b := hcb
  refine ⟨rfl, rfl, ?_, ?_, ?_, ?_⟩
  · rw [hbuy]
    exact hmain _ (mul_nonneg hf (by norm_num))
      ((min_le_right _ _).trans (min_le_left _ _))
  · rw [hbuy]
    exact hmain _ (mul_nonneg hc (by norm_num))
      ((min_le_right _ _).trans (min_le_right _ _))
  · rw [calculateKellyFraction]
    exact le_min (le_max_right _ _) (by norm_num)
  · rw [calculateKellyFraction]
    exact min_le_right _ _

/-- Witness for C4: sizing a BUY at confidence 0.8, volatility 0.1,
$100,000 fund value, $50,000 cash and a $100 share price. -/
theorem calculatePositionSize_limits_witness :
    (0 : ℚ) < 100 ∧ (0 : ℚ) ≤ 100000 ∧ (0 : ℚ) ≤ 50000
    ∧ (calculatePositionSize (8 / 10) TradeAction.SELL (1 / 10) 100000 50000 100 = 0
      ∧ calculatePositionSize (8 / 10) TradeAction.HOLD (1 / 10) 100000 50000 100 = 0
      ∧ ((calculatePositionSize (8 / 10) TradeAction.BUY (1 / 10) 100000 50000 100 : ℚ)
          * 100 ≤ 100000 * (10 / 100))
      ∧ ((calculatePositionSize (8 / 10) TradeAction.BUY (1 / 10) 100000 50000 100 : ℚ)
          * 100 ≤ 50000 * (1 - 5 / 100))
      ∧ 0 ≤ calculateKellyFraction (8 / 10) (1 / 10)
      ∧ calculateKellyFraction (8 / 10) (1 / 10) ≤ 25 / 100) :=
  ⟨by norm_num, by norm_num, by norm_num,
    calculatePositionSize_limits (8 / 10) (1 / 10) 100000 50000 100
      (by norm_num) (by norm_num) (by norm_num)⟩

/-! ## C5: the stochastic oscillator has no flat-window special case -/

/-- A flat 14-bar window (every high, low and close equal): input for the
stochastic-oscillator edge case. -/
def flatWindow : List ℚ := List.replicate 14 5

/-- Counterexample to C5: on a completely flat window the stochastic
oscillator divides by zero and produces NaN, not the midpoint 50. -/
theorem stochasticOscillator_flat_not_fifty :
    stochasticOscillator flatWindow flatWindow flatWindow 14
      = Except.ok [JSNum.nan]
    ∧ stochasticOscillator flatWindow flatWindow flatWindow 14
      ≠ Except.ok [JSNum.fin 50] := by
  have hlist : stochasticList flatWindow flatWindow flatWindow 14 = [JSNum.nan] := by
    have hflat : flatWindow = [5, 5, 5, 5, 5, 5, 5, 5, 5, 5, 5, 5, 5, 5] := rfl
    norm_num [stochasticList, hflat, listMax, listMin, jsDiv, jsMulConst,
      List.range_succ, List.getD]
  have h1 : stochasticOscillator flatWindow flatWindow flatWindow 14
      = Except.ok [JSNum.nan] := by
    rw [stochasticOscillator, if_neg (by decide), if_neg (by decide), hlist]
  refine ⟨h1, ?_⟩
  rw [h1]
  simp

/-- C5 (amended): the %K loop performs the division unconditionally.  On
a non-flat window %K is the textbook formula; on a flat window (highest
high = lowest low) the division by zero yields NaN or a signed infinity —
never a finite value, in particular never 50. -/
theorem stochasticList_no_flat_special_case
    (highs lows closes : List ℚ) (period : Nat) (hper : 0 < period)
    (j : Nat) (hj : j < (stochasticList highs lows closes period).length) :
    (listMax ((highs.drop j).take period) ≠ listMin ((lows.drop j).take period) →
      (stochasticList highs lows closes period).getD j (JSNum.fin 0)
        = JSNum.fin ((closes.getD (j + (period - 1)) 0
              - listMin ((lows.drop j).take period))
            / (listMax ((highs.drop j).take period)
              - listMin ((lows.drop j).take period)) * 100))
    ∧ (listMax ((highs.drop j).take period) = listMin ((lows.drop j).take period) →
        ∀ x : ℚ, (stochasticList highs lows closes period).getD j (JSNum.fin 0)
          ≠ JSNum.fin x) := by
  have hlen : j < (List.range (closes.length + 1 - period)).length := by
    simpa [stochasticList] using hj
  have hval : (stochasticList highs lows closes period).getD j (JSNum.fin 0)
      = jsMulConst (jsDiv (closes.getD (j + (period - 1)) 0
            - listMin ((lows.drop j).take period))
          (listMax ((highs.drop j).take period)
            - listMin ((lows.drop j).take period))) 100 := by
    rw [List.getD_eq_getElem _ _ hj]
    simp [stochasticList]
  rw [hval]
  constructor
  · intro hne
    have hd : listMax ((highs.drop j).take period)
        - listMin ((lows.drop j).take period) ≠ 0 := sub_ne_zero.mpr hne
    simp [jsDiv, hd, jsMulConst]
  · intro heq x
    set c := closes.getD (j + (period - 1)) 0 with hc
    set ll := listMin ((lows.drop j).take period) with hll
    set hh := listMax ((highs.drop j).take period) with hhh
    have hd : hh - ll = 0 := sub_eq_zero.mpr heq
    rw [hd]
    rcases lt_trichotomy (c - ll) 0 with h | h | h
    · simp [jsDiv, h.ne, not_lt.mpr h.le, jsMulConst]
    · simp [jsDiv, h, jsMulConst]
    · simp [jsDiv, h.ne', h, jsMulConst]

/-- Witness for C5 (amended): the flat 14-bar window at output index 0. -/
theorem stochasticList_no_flat_special_case_witness :
    0 < 14 ∧ 0 < (stochasticList flatWindow flatWindow flatWindow 14).length
    ∧ ((listMax ((flatWindow.drop 0).take 14) ≠ listMin ((flatWindow.drop 0).take 14) →
        (stochasticList flatWindow flatWindow flatWindow 14).getD 0 (JSNum.fin 0)
          = JSNum.fin ((flatWindow.getD (0 + (14 - 1)) 0
                - listMin ((flatWindow.drop 0).take 14))
              / (listMax ((flatWindow.drop 0).take 14)
                - listMin ((flatWindow.drop 0).take 14)) * 100))
      ∧ (listMax ((flatWindow.drop 0).take 14) = listMin ((flatWindow.drop 0).take 14) →
          ∀ x : ℚ, (stochasticList flatWindow flatWindow flatWindow 14).getD 0 (JSNum.fin 0)
            ≠ JSNum.fin x)) :=
  ⟨by decide, by decide,
    stochasticList_no_flat_special_case flatWindow flatWindow flatWindow 14
      (by decide) 0 (by decide)⟩

/-! ## C6: RSI of a strictly increasing series -/

/-- Unfolding `priceChanges` on two leading elements. -/
theorem priceChanges_cons₂ (a b : ℚ) (l : List ℚ) :
    priceChanges (a :: b :: l) = (b - a) :: priceChanges (b :: l) := rfl

/-- Every consecutive change of a strictly increasing series is positive. -/
theorem priceChanges_pos (prices : List ℚ) (hmono : prices.Chain' (· < ·)) :
    ∀ c ∈ priceChanges prices, 0 < c := by
  induction prices with
  | nil => intro c hc; simp [priceChanges] at hc
  | cons a l ih =>
    cases l with
    | nil => intro c hc; simp [priceChanges] at hc
    | cons b t =>
      intro c hc
      rw [priceChanges_cons₂] at hc
      rcases List.mem_cons.mp hc with rfl | hc'
      · have hab : a < b := (List.chain'_cons.mp hmono).1
        exact sub_pos.mpr hab
      · exact ih (List.chain'_cons.mp hmono).2 c hc'

/-- With a positive average gain and zero average loss, the RSI formula
produces exactly 100: `avgGain / 0` is `+∞`, `100 / (1 + ∞)` is `0`, and
`100 - 0` is the finite value 100. -/
theorem rsiPoint_pos_zero (avgGain : ℚ) (h : 0 < avgGain) :
    rsiPoint avgGain 0 = JSNum.fin 100 := by
  rw [rsiPoint, jsDiv, if_pos rfl, if_neg h.ne', if_pos h]
  show JSNum.fin (100 - 0) = JSNum.fin 100
  norm_num

/-- The Wilder-smoothing loop keeps producing 100 as long as every
remaining gain is positive and every remaining loss is zero. -/
theorem rsiLoop_all_100 (period : Nat) (hper : 0 < period) :
    ∀ (pairs : List (ℚ × ℚ)) (avgGain : ℚ), 0 < avgGain →
      (∀ pr ∈ pairs, 0 < pr.1 ∧ pr.2 = 0) →
      ∀ x ∈ rsiLoop period pairs avgGain 0, x = JSNum.fin 100 := by
  intro pairs
  induction pairs with
  | nil =>
    intro avgGain _ _ x hx
    simp [rsiLoop] at hx
  | cons gl rest ih =>
    intro avgGain hag hpr x hx
    have hgl := hpr gl (List.mem_cons_self _ _)
    have hperQ : (0 : ℚ) < (period : ℚ) := by exact_mod_cast hper
    have honeper : (1 : ℚ) ≤ (period : ℚ) := by exact_mod_cast hper
    have hag' : 0 < (avgGain * ((period : ℚ) - 1) + gl.1) / (period : ℚ) := by
      apply div_pos _ hperQ
      have h1 : 0 ≤ avgGain * ((period : ℚ) - 1) :=
        mul_nonneg hag.le (by linarith)
      linarith [hgl.1]
    have hloss : (0 * ((period : ℚ) - 1) + gl.2) / (period : ℚ) = 0 := by
      rw [hgl.2]; ring
    simp only [rsiLoop, hloss] at hx
    rcases List.mem_cons.mp hx with rfl | hx'
    · exact rsiPoint_pos_zero _ hag'
    · exact ih _ hag' (fun pr hpr' => hpr pr (List.mem_cons_of_mem _ hpr')) x hx'

/-- C6: on a strictly increasing price series of sufficient length, every
RSI value is exactly the finite number 100 — the `avgLoss = 0` division
passes through JavaScript's Infinity without producing NaN or throwing. -/
theorem rsi_strictly_increasing_all_100 (prices : List ℚ) (period : Nat)
    (hper : 0 < period) (hlen : period + 1 ≤ prices.length)
    (hmono : prices.Chain' (· < ·)) :
    ∃ out, relativeStrengthIndex prices period = Except.ok out
      ∧ out ≠ [] ∧ ∀ x ∈ out, x = JSNum.fin 100 := by
  have hchanges := priceChanges_pos prices hmono
  have hlenc : (priceChanges prices).length = prices.length - 1 := by
    simp [priceChanges]
  have hgain : ∀ g ∈ (priceChanges prices).map
      (fun c => if 0 < c then c else 0), 0 < g := by
    intro g hg
    obtain ⟨c, hc, rfl⟩ := List.mem_map.mp hg
    rw [if_pos (hchanges c hc)]
    exact hchanges c hc
  have hloss : ∀ l ∈ (priceChanges prices).map
      (fun c => if c < 0 then |c| else 0), l = 0 := by
    intro l hl
    obtain ⟨c, hc, rfl⟩ := List.mem_map.mp hl
    rw [if_neg (not_lt.mpr (hchanges c hc).le)]
  have hperQ : (0 : ℚ) < (period : ℚ) := by exact_mod_cast hper
  have havgG : 0 < (((priceChanges prices).map
      (fun c => if 0 < c then c else 0)).take period).sum / (period : ℚ) := by
    apply div_pos _ hperQ
    have hlen2 : (((priceChanges prices).map
        (fun c => if 0 < c then c else 0)).take period).length = period := by
      rw [List.length_take, List.length_map, hlenc]
      omega
    apply List.sum_pos
    · intro g hg
      exact hgain g (List.mem_of_mem_take hg)
    · exact List.ne_nil_of_length_pos (by rw [hlen2]; omega)
  have havgL : (((priceChanges prices).map
      (fun c => if c < 0 then |c| else 0)).take period).sum / (period : ℚ) = 0 := by
    have : (((priceChanges prices).map
        (fun c => if c < 0 then |c| else 0)).take period).sum = 0 := by
      apply List.sum_eq_zero
      intro l hl
      exact hloss l (List.mem_of_mem_take hl)
    rw [this, zero_div]
  rw [relativeStrengthIndex, if_neg (by omega)]
  refine ⟨_, rfl, by simp, ?_⟩
  intro x hx
  rw [havgL] at hx
  rcases List.mem_cons.mp hx with rfl | hx'
  · exact rsiPoint_pos_zero _ havgG
  · refine rsiLoop_all_100 period hper _ _ havgG ?_ x hx'
    intro pr hpr
    have hz := List.of_mem_zip hpr
    exact ⟨hgain pr.1 (List.mem_of_mem_drop hz.1),
      hloss pr.2 (List.mem_of_mem_drop hz.2)⟩

/-- A strictly increasing 16-bar price series for the RSI edge case. -/
def risingPrices : List ℚ :=
  [1, 2, 3, 4, 5, 6, 7, 8, 9, 10, 11, 12, 13, 14, 15, 16]

/-- Witness for C6: RSI(14) over 16 strictly increasing prices. -/
theorem rsi_strictly_increasing_all_100_witness :
    0 < 14 ∧ 14 + 1 ≤ risingPrices.length
    ∧ risingPrices.Chain' (· < ·)
    ∧ ∃ out, relativeStrengthIndex risingPrices 14 = Except.ok out
        ∧ out ≠ [] ∧ ∀ x ∈ out, x = JSNum.fin 100 :=
  ⟨by decide, by decide,
    by norm_num [risingPrices, List.chain'_cons, List.chain'_singleton],
    rsi_strictly_increasing_all_100 risingPrices 14 (by decide) (by decide)
      (by norm_num [risingPrices, List.chain'_cons, List.chain'_singleton])⟩

/-! ## C7: backtest drawdown bookkeeping -/

/-- Properties of `List.foldl max`: the seed is a lower bound, every list
element is a lower bound, and the result is the seed or an element. -/
theorem foldl_max_spec (l : List ℚ) :
    ∀ a : ℚ, a ≤ l.foldl max a ∧ (∀ x ∈ l, x ≤ l.foldl max a)
      ∧ (l.foldl max a = a ∨ l.foldl max a ∈ l) := by
  induction l with
  | nil => intro a; exact ⟨le_refl a, by simp, Or.inl rfl⟩
  | cons b t ih =>
    intro a
    obtain ⟨h1, h2, h3⟩ := ih (max a b)
    refine ⟨(le_max_left a b).trans h1, ?_, ?_⟩
    · intro x hx
      rcases List.mem_cons.mp hx with rfl | hx'
      · exact (le_max_right a x).trans h1
      · exact h2 x hx'
    · rcases h3 with h | h
      · rcases max_choice a b with hm | hm
        · exact Or.inl (by rw [List.foldl_cons, h, hm])
        · refine Or.inr ?_
          have hb : (b :: t).foldl max a = b := by rw [List.foldl_cons, h, hm]
          rw [hb]
          exact List.mem_cons_self _ _
      · exact Or.inr (List.mem_cons_of_mem _ h)

/-- Bounds and membership for `listMax` on a non-empty list. -/
theorem listMax_spec (a : ℚ) (t : List ℚ) :
    (∀ x ∈ a :: t, x ≤ listMax (a :: t)) ∧ listMax (a :: t) ∈ a :: t := by
  have hshape : listMax (a :: t) = t.foldl max a := by
    simp [listMax]
  obtain ⟨h1, h2, h3⟩ := foldl_max_spec t a
  constructor
  · intro x hx
    rw [hshape]
    rcases List.mem_cons.mp hx with rfl | hx'
    · exact h1
    · exact h2 x hx'
  · rw [hshape]
    rcases h3 with h | h
    · rw [h]
      exact List.mem_cons_self _ _
    · exact List.mem_cons_of_mem _ h

/-- The equity loop records one point per day. -/
theorem equityLoop_length (ic prev peak : ℚ) (values : List ℚ) :
    (equityLoop ic values prev peak).length = values.length := by
  induction values generalizing prev peak with
  | nil => rfl
  | cons pv rest ih =>
    rw [equityLoop]
    simp only [List.length_cons, ih]

/-- The JavaScript peak update `if (pv > peak) peak = pv` is `max`. -/
theorem peakUpdate_eq_max (peak pv : ℚ) :
    (if peak < pv then pv else peak) = max peak pv := by
  rcases le_or_lt pv peak with h | h
  · rw [if_neg (not_lt.mpr h), max_eq_left h]
  · rw [if_pos h, max_eq_right h.le]

/-- Each recorded drawdown equals `(peak − value) / peak` for the running
peak of all values seen so far (seeded with the loop's starting peak), and
is non-negative whenever the starting peak is positive. -/
theorem equityLoop_drawdown (ic : ℚ) (values : List ℚ) :
    ∀ (prev peak : ℚ), 0 < peak →
      ∀ j, j < values.length →
        ((equityLoop ic values prev peak).getD j ⟨0, 0, 0, 0⟩).drawdown
            = ((values.take (j + 1)).foldl max peak - values.getD j 0)
                / (values.take (j + 1)).foldl max peak
          ∧ 0 ≤ ((equityLoop ic values prev peak).getD j ⟨0, 0, 0, 0⟩).drawdown := by
  induction values with
  | nil =>
    intro prev peak _ j hj
    simp at hj
  | cons pv rest ih =>
    intro prev peak hpk j hj
    cases j with
    | zero =>
      have hdd : ((equityLoop ic (pv :: rest) prev peak).getD 0 ⟨0, 0, 0, 0⟩).drawdown
          = (max peak pv - pv) / max peak pv := by
        simp only [equityLoop, List.getD_cons_zero, peakUpdate_eq_max]
      have htake : ((pv :: rest).take 1).foldl max peak = max peak pv := by
        simp
      rw [hdd]
      have hden : 0 < max peak pv := lt_of_lt_of_le hpk (le_max_left _ _)
      refine ⟨by rw [htake, List.getD_cons_zero], ?_⟩
      exact div_nonneg (sub_nonneg.mpr (le_max_right _ _)) hden.le
    | succ j =>
      have hrec : (equityLoop ic (pv :: rest) prev peak).getD (j + 1) ⟨0, 0, 0, 0⟩
          = (equityLoop ic rest pv (max peak pv)).getD j ⟨0, 0, 0, 0⟩ := by
        simp only [equityLoop, List.getD_cons_succ, peakUpdate_eq_max]
      have hpk' : 0 < max peak pv := lt_of_lt_of_le hpk (le_max_left _ _)
      have hj' : j < rest.length := by simpa using hj
      obtain ⟨h1, h2⟩ := ih pv (max peak pv) hpk' j hj'
      rw [hrec]
      refine ⟨?_, h2⟩
      rw [h1]
      have htake : ((pv :: rest).take (j + 1 + 1)).foldl max peak
          = (rest.take (j + 1)).foldl max (max peak pv) := by
        simp [List.foldl_cons]
      rw [htake, List.getD_cons_succ]

/-- C7: over any non-empty sequence of daily portfolio values with a
positive initial capital, every recorded drawdown equals
`(peak_so_far − value) / peak_so_far` with the running peak seeded by the
initial capital (hence is non-negative); the final `maxDrawdown` is an
upper bound of, and attained among, the recorded drawdowns; and the
Calmar ratio is `annualized / maxDrawdown`, defaulting to 0 when the max
drawdown is 0. -/
theorem backtest_drawdown_properties (ic : ℚ) (values : List ℚ)
    (hic : 0 < ic) (hne : values ≠ []) :
    (∀ j, j < values.length →
      ((runBacktestEquity ic values).getD j ⟨0, 0, 0, 0⟩).drawdown
          = ((values.take (j + 1)).foldl max ic - values.getD j 0)
              / (values.take (j + 1)).foldl max ic
        ∧ 0 ≤ ((runBacktestEquity ic values).getD j ⟨0, 0, 0, 0⟩).drawdown)
    ∧ (∀ e ∈ runBacktestEquity ic values,
        e.drawdown ≤ maxDrawdownOf (runBacktestEquity ic values))
    ∧ maxDrawdownOf (runBacktestEquity ic values)
        ∈ (runBacktestEquity ic values).map (fun e => e.drawdown)
    ∧ (∀ annualized : ℚ, calmarRatio annualized 0 = 0)
    ∧ (∀ annualized d : ℚ, 0 < d → calmarRatio annualized d = annualized / d) := by
  have hmapne : (runBacktestEquity ic values).map (fun e => e.drawdown) ≠ [] := by
    intro h
    have h0 := congrArg List.length h
    rw [List.length_map, runBacktestEquity, equityLoop_length] at h0
    simp at h0
    exact hne h0
  obtain ⟨a, t, hmap⟩ := List.exists_cons_of_ne_nil hmapne
  refine ⟨fun j hj => equityLoop_drawdown ic values ic ic hic j hj, ?_, ?_, ?_, ?_⟩
  · intro e he
    rw [maxDrawdownOf, hmap]
    exact (listMax_spec a t).1 _ (hmap ▸ List.mem_map_of_mem (fun e => e.drawdown) he)
  · rw [maxDrawdownOf, hmap]
    exact hmap ▸ (listMax_spec a t).2
  · intro annualized
    rw [calmarRatio, if_neg (lt_irrefl 0)]
  · intro annualized d hd
    rw [calmarRatio, if_pos hd]

/-- Witness for C7: initial capital 100 and two trading days valued 110
then 99. -/
theorem backtest_drawdown_properties_witness :
    (0 : ℚ) < 100 ∧ ([(110 : ℚ), 99] ≠ [])
    ∧ ((∀ j, j < [(110 : ℚ), 99].length →
        ((runBacktestEquity 100 [110, 99]).getD j ⟨0, 0, 0, 0⟩).drawdown
            = (([(110 : ℚ), 99].take (j + 1)).foldl max 100
                - [(110 : ℚ), 99].getD j 0)
                / ([(110 : ℚ), 99].take (j + 1)).foldl max 100
          ∧ 0 ≤ ((runBacktestEquity 100 [110, 99]).getD j ⟨0, 0, 0, 0⟩).drawdown)
      ∧ (∀ e ∈ runBacktestEquity 100 [(110 : ℚ), 99],
          e.drawdown ≤ maxDrawdownOf (runBacktestEquity 100 [110, 99]))
      ∧ maxDrawdownOf (runBacktestEquity 100 [(110 : ℚ), 99])
          ∈ (runBacktestEquity 100 [(110 : ℚ), 99]).map (fun e => e.drawdown)
      ∧ (∀ annualized : ℚ, calmarRatio annualized 0 = 0)
      ∧ (∀ annualized d : ℚ, 0 < d → calmarRatio annualized d = annualized / d)) :=
  ⟨by norm_num, by simp,
    backtest_drawdown_properties 100 [110, 99] (by norm_num) (by simp)⟩

/-! ## C3: a genuine bullish crossover is not detected by `analyze` -/

/-- An 11-bar closing-price history in which the 5-bar SMA crosses from
below-or-equal the 10-bar SMA to strictly above it exactly at the last
bar (SMA₅: 10 → 10.2, SMA₁₀: 10.2 → 10.1). -/
def maCrossCloses : List ℚ := [12, 10, 10, 10, 10, 10, 10, 10, 10, 10, 11]

/-- The same history as (close, volume) market data with constant
volume 100. -/
def maCrossData : List (ℚ × ℚ) := maCrossCloses.map fun c => (c, 100)

/-- C3: a price history where a bullish moving-average crossover has just
occurred (in the spec's aligned sense), on which the strategy nevertheless
returns HOLD with confidence 5/11 < 0.6.  `simpleMovingAverage` returns
`n − period + 1` values, so the fast and slow SMA arrays always have
different lengths and `movingAverageCrossover` — which requires equal
lengths — returns `(false, false)` unconditionally, leaving the
crossover BUY branch unreachable. -/
theorem maAnalyze_bullish_crossover_not_detected :
    bullishCrossoverAtLast maCrossCloses 5 10 = true
    ∧ movingAverageCrossover (smaList maCrossCloses 5) (smaList maCrossCloses 10) 1
        = (false, false)
    ∧ maAnalyze ⟨5, 10, none⟩ maCrossData 0
        = ⟨TradeAction.HOLD, 5 / 11, 25 / 100⟩
    ∧ (maAnalyze ⟨5, 10, none⟩ maCrossData 0).confidence < 6 / 10 := by
  have hfast : smaList maCrossCloses 5 = [52/5, 10, 10, 10, 10, 10, 51/5] := by
    norm_num [smaList, maCrossCloses, List.range_succ, List.getD]
  have hslow : smaList maCrossCloses 10 = [51/5, 101/10] := by
    norm_num [smaList, maCrossCloses, List.range_succ, List.getD]
  have hres : maAnalyze ⟨5, 10, none⟩ maCrossData 0
      = ⟨TradeAction.HOLD, 5 / 11, 25 / 100⟩ := by
    norm_num [maAnalyze, maCrossData, maCrossCloses, smaList,
      movingAverageCrossover, listMax, listMin, clampConfidence,
      List.range_succ, List.getD, min_def, max_def]
    rw [abs_of_pos (show (0 : ℚ) < 1/10 by norm_num)]
    norm_num
  refine ⟨?_, by decide, hres, ?_⟩
  · rw [bullishCrossoverAtLast]
    norm_num [hfast, hslow, List.getD]
  · rw [hres]
    norm_num

/-! ## C1: FIFO close correctness -/

/-- Structural characterization of the FIFO walk over all-OPEN lots with
sufficient inventory: some prefix of `k` lots is fully closed in order,
then either the remainder is zero and the rest of the list is untouched,
or the next lot is split — reduced in place, with a new CLOSED record
inheriting its entry price — and everything after it is untouched. -/
theorem executeFIFOSell_structure (ex : ℚ) (now newId : Nat) :
    ∀ (lots : List Position) (q : Nat),
      (∀ p ∈ lots, p.isActive = true) →
      q ≤ getAvailableShares lots →
      ∃ k r, k ≤ lots.length
        ∧ (((lots.take k).map fun p => p.quantity).sum + r = q)
        ∧ ((r = 0
            ∧ (executeFIFOSell ex now newId lots q).1
                = (lots.take k).map (closeFull ex now) ++ lots.drop k
            ∧ (executeFIFOSell ex now newId lots q).2
                = (lots.take k).map
                    fun p => (⟨p.id, p.quantity, p.entryPrice⟩ : SoldLot))
          ∨ (∃ p rest, lots.drop k = p :: rest ∧ 0 < r ∧ r < p.quantity
            ∧ (executeFIFOSell ex now newId lots q).1
                = (lots.take k).map (closeFull ex now)
                  ++ ({ p with quantity := p.quantity - r }
                    :: splitClosedRecord p r ex now newId :: rest)
            ∧ (executeFIFOSell ex now newId lots q).2
                = ((lots.take k).map
                    fun x => (⟨x.id, x.quantity, x.entryPrice⟩ : SoldLot))
                  ++ [⟨p.id, r, p.entryPrice⟩])) := by
  intro lots
  induction lots with
  | nil =>
    intro q hact hq
    have hq0 : q = 0 := by
      simpa [getAvailableShares] using hq
    refine ⟨0, 0, by simp, by simp [hq0], Or.inl ⟨rfl, rfl, rfl⟩⟩
  | cons p ps ih =>
    intro q hact hq
    have hp : p.isActive = true := hact p (List.mem_cons_self _ _)
    have hact' : ∀ x ∈ ps, x.isActive = true :=
      fun x hx => hact x (List.mem_cons_of_mem _ hx)
    have havail : getAvailableShares (p :: ps)
        = p.quantity + getAvailableShares ps :=
      getAvailableShares_cons_active ps hp
    by_cases h0 : q = 0
    · subst h0
      have hexec : executeFIFOSell ex now newId (p :: ps) 0 = (p :: ps, []) := by
        rw [executeFIFOSell]
        simp
      refine ⟨0, 0, by simp, by simp, Or.inl ⟨rfl, ?_, ?_⟩⟩
      · rw [hexec]
        simp
      · rw [hexec]
        rfl
    · by_cases hle : p.quantity ≤ q
      · have hq' : q - p.quantity ≤ getAvailableShares ps := by omega
        obtain ⟨k, r, hk, hsum, hrest⟩ := ih (q - p.quantity) hact' hq'
        have hexec : executeFIFOSell ex now newId (p :: ps) q
            = (closeFull ex now p
                :: (executeFIFOSell ex now newId ps (q - p.quantity)).1,
              (⟨p.id, p.quantity, p.entryPrice⟩ : SoldLot)
                :: (executeFIFOSell ex now newId ps (q - p.quantity)).2) := by
          rw [executeFIFOSell, if_neg h0, if_neg (by simp [hp]), if_pos hle]
        refine ⟨k + 1, r, by simpa using hk, ?_, ?_⟩
        · simp only [List.take_succ_cons, List.map_cons, List.sum_cons]
          rw [Nat.add_assoc, hsum]
          exact Nat.add_sub_cancel' hle
        · rcases hrest with ⟨hr0, h1, h2⟩ | ⟨p', rest', hdrop, hrpos, hrlt, h1, h2⟩
          · refine Or.inl ⟨hr0, ?_, ?_⟩
            · rw [hexec]
              simp only [List.take_succ_cons, List.map_cons, List.cons_append,
                List.drop_succ_cons]
              rw [h1]
            · rw [hexec]
              simp only [List.take_succ_cons, List.map_cons]
              rw [h2]
          · refine Or.inr ⟨p', rest', by simpa using hdrop, hrpos, hrlt, ?_, ?_⟩
            · rw [hexec]
              simp only [List.take_succ_cons, List.map_cons, List.cons_append,
                List.drop_succ_cons]
              rw [h1]
            · rw [hexec]
              simp only [List.take_succ_cons, List.map_cons, List.cons_append]
              rw [h2]
      · have hexec : executeFIFOSell ex now newId (p :: ps) q
            = ({ p with quantity := p.quantity - q }
                  :: splitClosedRecord p q ex now newId :: ps,
              [⟨p.id, q, p.entryPrice⟩]) := by
          rw [executeFIFOSell, if_neg h0, if_neg (by simp [hp]), if_neg hle]
        refine ⟨0, q, by simp, by simp,
          Or.inr ⟨p, ps, rfl, by omega, by omega, ?_, ?_⟩⟩
        · rw [hexec]
          simp
        · rw [hexec]
          simp

/-- C1: for a sell of `q` shares with `q` at most the available open
quantity, the FIFO close touches lots strictly in list (open-timestamp)
order: the returned closed sub-lot quantities sum exactly to `q`; a
prefix of lots is fully closed (each contributing its whole quantity and
entry price to the sold list); at most one following lot is split — its
OPEN row reduced by the leftover `r` and a new CLOSED record created
with the original entry price — and all later lots are untouched. -/
theorem executeFIFOSell_fifo_close_correct
    (lots : List Position) (q : Nat) (ex : ℚ) (now newId : Nat)
    (hact : ∀ p ∈ lots, p.isActive = true)
    (hq : q ≤ getAvailableShares lots) :
    (((executeFIFOSell ex now newId lots q).2.map fun s => s.quantity).sum = q)
    ∧ ∃ k r, k ≤ lots.length
        ∧ (((lots.take k).map fun p => p.quantity).sum + r = q)
        ∧ ((r = 0
            ∧ (executeFIFOSell ex now newId lots q).1
                = (lots.take k).map (closeFull ex now) ++ lots.drop k
            ∧ (executeFIFOSell ex now newId lots q).2
                = (lots.take k).map
                    fun p => (⟨p.id, p.quantity, p.entryPrice⟩ : SoldLot))
          ∨ (∃ p rest, lots.drop k = p :: rest ∧ 0 < r ∧ r < p.quantity
            ∧ (executeFIFOSell ex now newId lots q).1
                = (lots.take k).map (closeFull ex now)
                  ++ ({ p with quantity := p.quantity - r }
                    :: splitClosedRecord p r ex now newId :: rest)
            ∧ (executeFIFOSell ex now newId lots q).2
                = ((lots.take k).map
                    fun x => (⟨x.id, x.quantity, x.entryPrice⟩ : SoldLot))
                  ++ [⟨p.id, r, p.entryPrice⟩])) := by
  obtain ⟨k, r, hk, hsum, hrest⟩ :=
    executeFIFOSell_structure ex now newId lots q hact hq
  refine ⟨?_, k, r, hk, hsum, hrest⟩
  have hqty : ∀ l : List Position,
      ((l.map fun x => (⟨x.id, x.quantity, x.entryPrice⟩ : SoldLot)).map
          fun s => s.quantity)
        = l.map fun p => p.quantity := by
    intro l
    induction l with
    | nil => rfl
    | cons a t ihl => simp [ihl]
  rcases hrest with ⟨hr0, h1, h2⟩ | ⟨p, rest, hdrop, hrpos, hrlt, h1, h2⟩
  · rw [h2, hqty]
    omega
  · rw [h2, List.map_append, hqty, List.sum_append]
    simp only [List.map_cons, List.map_nil, List.sum_cons, List.sum_nil]
    omega

/-- Two OPEN lots — 50 shares at \$10 (t=1) and 50 shares at \$12
(t=2) — for the FIFO witness. -/
def fifoLotsEx : List Position :=
  [⟨1, 1, none, 50, 10, none, true⟩, ⟨2, 2, none, 50, 12, none, true⟩]

/-- Witness for C1: selling 60 of the 100 available shares closes the
t=1 lot fully and splits the t=2 lot. -/
theorem executeFIFOSell_fifo_close_correct_witness :
    (∀ p ∈ fifoLotsEx, p.isActive = true) ∧ 60 ≤ getAvailableShares fifoLotsEx
    ∧ ((((executeFIFOSell 11 5 99 fifoLotsEx 60).2.map fun s => s.quantity).sum = 60)
      ∧ ∃ k r, k ≤ fifoLotsEx.length
          ∧ (((fifoLotsEx.take k).map fun p => p.quantity).sum + r = 60)
          ∧ ((r = 0
              ∧ (executeFIFOSell 11 5 99 fifoLotsEx 60).1
                  = (fifoLotsEx.take k).map (closeFull 11 5) ++ fifoLotsEx.drop k
              ∧ (executeFIFOSell 11 5 99 fifoLotsEx 60).2
                  = (fifoLotsEx.take k).map
                      fun p => (⟨p.id, p.quantity, p.entryPrice⟩ : SoldLot))
            ∨ (∃ p rest, fifoLotsEx.drop k = p :: rest ∧ 0 < r ∧ r < p.quantity
              ∧ (executeFIFOSell 11 5 99 fifoLotsEx 60).1
                  = (fifoLotsEx.take k).map (closeFull 11 5)
                    ++ ({ p with quantity := p.quantity - r }
                      :: splitClosedRecord p r 11 5 99 :: rest)
              ∧ (executeFIFOSell 11 5 99 fifoLotsEx 60).2
                  = ((fifoLotsEx.take k).map
                      fun x => (⟨x.id, x.quantity, x.entryPrice⟩ : SoldLot))
                    ++ [⟨p.id, r, p.entryPrice⟩]))) :=
  ⟨by decide, by decide,
    executeFIFOSell_fifo_close_correct fifoLotsEx 60 11 5 99 (by decide) (by decide)⟩
